import Mathlib

/-!
Shallow embedding of the AOSC-Dev/kpi crawler (src/main.rs) and proofs of
its specified properties.

The program lists an organization's repositories, filters them by a
trailing activity window, walks each repository's commit pages with an
early-termination rule, aggregates commit author/committer identities
into a login -> profile-URL map, and optionally prunes non-members of
the organization.

External library behaviour (chrono timestamp parsing, HTTP transport) is
modelled by oracles: a parse function `String → Except String Int` stands
for `DateTime::parse_from_rfc3339(..).to_utc()` (timestamps as absolute
UTC instants), and the sequence of commit-page fetch outcomes stands for
the paginated GitHub API. Control flow is translated from the source.
-/

namespace Kpi

/-- `Repo` from src/main.rs: `{ url, pushed_at }`. -/
structure Repo where
  url : String
  pushed_at : String
deriving DecidableEq, Repr

/-- `RepoAuthor` from src/main.rs: `{ date }`. -/
structure RepoAuthor where
  date : String
deriving DecidableEq, Repr

/-- `RepoCommit` from src/main.rs: structured commit metadata with author
and committer dates. -/
structure RepoCommit where
  author : RepoAuthor
  committer : RepoAuthor
deriving DecidableEq, Repr

/-- `Author` from src/main.rs: platform identity, both fields optional. -/
structure Author where
  login : Option String
  html_url : Option String
deriving DecidableEq, Repr

/-- `Commit` from src/main.rs: an element of a commit page; the structured
metadata and both identities are optional. -/
structure Commit where
  commit : Option RepoCommit
  author : Option Author
  committer : Option Author
deriving DecidableEq, Repr

/-- Outcome of one `get_commits` call (`reqwest` modelled as an oracle):
either a JSON page of commits, or an HTTP/transport error carrying
`e.status()` (`none` for pure transport errors, `some code` for HTTP
status errors produced by `error_for_status`). -/
inductive FetchResult where
  | success (commits : List Commit)
  | httpError (status : Option Nat)
deriving DecidableEq, Repr

/-- The distinct `bail!` and `?` error exits of `get_commits_info_by_url`. -/
inductive WalkError where
  | gitRepositoryIsEmpty
  | failedToGetCommits
  | parseError (msg : String)
deriving DecidableEq, Repr

/-- The window predicate used at src/main.rs:116 (`Utc::now() - dt <=
days_duration`) and, negated, at src/main.rs:323-324. -/
def in_window (now ts dur : Int) : Bool :=
  now - ts ≤ dur

/-- The repository pre-filter loop at src/main.rs:114-119: parse each
repository's `pushed_at` (a parse failure propagates via `?` and fails the
whole run), keep the repository when `Utc::now() - dt <= days_duration`. -/
def filterRepos (parse : String → Except String Int) (now dur : Int) :
    List Repo → Except String (List Repo)
  | [] => Except.ok []
  | r :: rest =>
    match parse r.pushed_at with
    | Except.error e => Except.error e
    | Except.ok dt =>
      match filterRepos parse now dur rest with
      | Except.error e => Except.error e
      | Except.ok rest2 =>
        if in_window now dt dur then Except.ok (r :: rest2)
        else Except.ok rest2

/-- Whether a commit carries structured commit metadata
(`i.commit.is_some()` in the source's `if let`). -/
def hasMeta (c : Commit) : Bool :=
  c.commit.isSome

/-- The early-termination test at src/main.rs:323-324: the commit has
structured metadata, both dates parse, and both `Utc::now() - dt >
days_duration`. -/
def bothOutside (parse : String → Except String Int) (now dur : Int)
    (c : Commit) : Bool :=
  match c.commit with
  | none => false
  | some m =>
    match parse m.committer.date, parse m.author.date with
    | Except.ok cdt, Except.ok adt =>
      decide (now - cdt > dur) && decide (now - adt > dur)
    | _, _ => false

/-- Result of processing the commits of one page: continue to the next
page with the accumulator, or stop the walk (early termination fired). -/
inductive PageStep where
  | next (acc : List Commit)
  | stop (acc : List Commit)
deriving DecidableEq, Repr

/-- The `for i in json` loop body at src/main.rs:317-331: commits without
structured metadata are skipped; otherwise the committer date then the
author date are parsed (a failure propagates via `?`); if both are outside
the window the walk returns immediately with the accumulator, else the
commit is pushed. -/
def processCommits (parse : String → Except String Int) (now dur : Int)
    (acc : List Commit) : List Commit → Except WalkError PageStep
  | [] => Except.ok (PageStep.next acc)
  | i :: rest =>
    match i.commit with
    | none => processCommits parse now dur acc rest
    | some m =>
      match parse m.committer.date with
      | Except.error e => Except.error (WalkError.parseError e)
      | Except.ok cdt =>
        match parse m.author.date with
        | Except.error e => Except.error (WalkError.parseError e)
        | Except.ok adt =>
          if now - cdt > dur ∧ now - adt > dur then
            Except.ok (PageStep.stop acc)
          else
            processCommits parse now dur (acc ++ [i]) rest

/-- The page loop of `get_commits_info_by_url` (src/main.rs:300-334).
The oracle list gives the outcome of fetching page 1, 2, ...; running past
the end of the list models the API returning an empty page forever.
On `StatusCode::CONFLICT` (409) the walk bails with "Git Repository is
empty"; on any other fetch error it bails with "Failed to get commits";
an empty page returns the accumulator; otherwise the page's commits are
processed and, unless early termination fired, the next page is fetched. -/
def goPages (parse : String → Except String Int) (now dur : Int) :
    List FetchResult → List Commit → Except WalkError (List Commit)
  | [], acc => Except.ok acc
  | fr :: rest, acc =>
    match fr with
    | FetchResult.httpError st =>
      if st = some 409 then Except.error WalkError.gitRepositoryIsEmpty
      else Except.error WalkError.failedToGetCommits
    | FetchResult.success json =>
      if json.isEmpty then Except.ok acc
      else
        match processCommits parse now dur acc json with
        | Except.error e => Except.error e
        | Except.ok (PageStep.stop acc2) => Except.ok acc2
        | Except.ok (PageStep.next acc2) => goPages parse now dur rest acc2

/-- `get_commits_info_by_url` (src/main.rs:290-335): walk one repository's
commit pages starting from page 1 with an empty accumulator. -/
def get_commits_info_by_url (parse : String → Except String Int)
    (now dur : Int) (pages : List FetchResult) :
    Except WalkError (List Commit) :=
  goPages parse now dur pages []

/-- `HashMap::insert` on the aggregation map, modelled on an association
list with unique keys: overwrite the value when the key is present
(last-write-wins), append otherwise. -/
def mapInsert (m : List (String × String)) (k v : String) :
    List (String × String) :=
  if m.any (fun p => p.1 = k) then
    m.map (fun p => if p.1 = k then (k, v) else p)
  else
    m ++ [(k, v)]

/-- `HashMap` lookup on the association-list model. -/
def mapLookup (m : List (String × String)) (k : String) : Option String :=
  (m.find? (fun p => p.1 = k)).map (fun p => p.2)

/-- Rust's `map[user]` indexing (src/main.rs:204,206); the source only
indexes with keys taken from the map, so the default is never reached. -/
def mapIndex (m : List (String × String)) (k : String) : String :=
  (mapLookup m k).getD ""

/-- One identity's contribution at src/main.rs:158-164 / 166-172: insert
`login -> html_url` only when the identity is present and both its
`html_url` and `login` are present; otherwise the map is unchanged. -/
def insertIdentity (m : List (String × String)) (a : Option Author) :
    List (String × String) :=
  match a with
  | none => m
  | some a =>
    match a.html_url with
    | none => m
    | some url =>
      match a.login with
      | none => m
      | some login => mapInsert m login url

/-- The per-commit aggregation at src/main.rs:157-173: author identity
first, then committer identity. -/
def aggregateCommit (m : List (String × String)) (c : Commit) :
    List (String × String) :=
  insertIdentity (insertIdentity m c.author) c.committer

/-- Fold a walker's commit list into the aggregation map. -/
def aggregateCommits (commits : List Commit) (m : List (String × String)) :
    List (String × String) :=
  commits.foldl aggregateCommit m

/-- The result-draining loop at src/main.rs:154-179: `Ok(commits)` feeds
the aggregation map, `Err(e)` is logged (collected here) and contributes
nothing; the loop itself never fails. -/
def drainGo : List (Except WalkError (List Commit)) →
    List (String × String) → List WalkError →
    List (String × String) × List WalkError
  | [], m, errs => (m, errs)
  | Except.ok commits :: rest, m, errs =>
    drainGo rest (aggregateCommits commits m) errs
  | Except.error e :: rest, m, errs => drainGo rest m (errs ++ [e])

/-- Drain all per-repository walk results into the aggregation map and the
list of logged per-repository errors, starting from the empty map. -/
def drainResults (results : List (Except WalkError (List Commit))) :
    List (String × String) × List WalkError :=
  drainGo results [] []

/-- Outcome of one membership-check HTTP call, after `error_for_status`:
success, or an error carrying `e.status()`. -/
inductive MembershipResp where
  | success
  | httpError (status : Option Nat)
deriving DecidableEq, Repr

/-- `is_org_user` (src/main.rs:263-288) response classification: success
means member, HTTP 404 means non-member, anything else bails with
"Network is not reachable". -/
def is_org_user (user : String) (resp : MembershipResp) :
    Except String (String × Bool) :=
  match resp with
  | MembershipResp.success => Except.ok (user, true)
  | MembershipResp.httpError st =>
    if st = some 404 then Except.ok (user, false)
    else Except.error "Network is not reachable"

/-- The membership-result loop at src/main.rs:196-213: a member is printed
with `map[user]`, a non-member is skipped, and an `Err` aborts the whole
run via `bail!`. -/
def filterOrgUsers (m : List (String × String)) :
    List (Except String (String × Bool)) →
    Except String (List (String × String))
  | [] => Except.ok []
  | Except.error e :: _ => Except.error e
  | Except.ok (user, isOrg) :: rest =>
    if isOrg then do
      let out ← filterOrgUsers m rest
      Except.ok ((user, mapIndex m user) :: out)
    else
      filterOrgUsers m rest

/-- The repository-listing URL built in `get_repos` (src/main.rs:233-235):
it interpolates the configured organization. -/
def get_repos_url (org : String) : String :=
  "https://api.github.com/orgs/" ++ org ++ "/repos?per_page=100&sort=pushed"

/-- The membership-check URL built in `is_org_user` (src/main.rs:272-275):
the organization segment is the literal string "aosc-dev"; the function
takes no organization parameter. -/
def is_org_user_url (user : String) : String :=
  "https://api.github.com/orgs/aosc-dev/memberships/" ++ user

/-- Modelled from the spec: the membership check the spec describes is
"per (organization, login)" against the configured organization — the one
whose repositories are crawled. The corresponding URL would interpolate
the configured organization, as `get_repos` does. -/
def membership_url_spec (org user : String) : String :=
  "https://api.github.com/orgs/" ++ org ++ "/memberships/" ++ user

/-! Theorems for the claims. -/

/-- Claim C1, as stated, is false: on the empty-repository signal (HTTP
409) on the first commit-page fetch, the walker does not terminate
successfully — at this concrete input it returns the error
`gitRepositoryIsEmpty`, not `Except.ok []`. -/
theorem C1_counterexample :
    get_commits_info_by_url (fun _ => Except.ok 0) 0 0
        [FetchResult.httpError (some 409)] =
      Except.error WalkError.gitRepositoryIsEmpty ∧
    (get_commits_info_by_url (fun _ => Except.ok 0) 0 0
        [FetchResult.httpError (some 409)]).isOk = false := by
  exact ⟨rfl, rfl⟩

/-- C1 (amended): if the first commit-page fetch for a repository reports
the empty-repository signal (HTTP 409), the Repository Walker terminates
the walk for that repository with the error "Git Repository is empty"
(it does not return the accumulated records); at run level this error is
logged and the repository contributes nothing to aggregation, like any
other per-repository walk failure. -/
theorem C1_conflict_is_error (parse : String → Except String Int)
    (now dur : Int) (rest : List FetchResult) :
    get_commits_info_by_url parse now dur
        (FetchResult.httpError (some 409) :: rest) =
      Except.error WalkError.gitRepositoryIsEmpty ∧
    drainResults [Except.error WalkError.gitRepositoryIsEmpty] =
      ([], [WalkError.gitRepositoryIsEmpty]) := by
  exact ⟨rfl, rfl⟩

/-- Unfolding of the draining loop: the aggregation map is the fold over
the successful results only, and the logged errors are exactly the
errors of the failed results, in order. -/
theorem drainGo_eq (results : List (Except WalkError (List Commit)))
    (m : List (String × String)) (errs : List WalkError) :
    drainGo results m errs =
      ((results.filterMap Except.toOption).foldl
          (fun acc cs => aggregateCommits cs acc) m,
        errs ++ results.filterMap (fun r =>
          match r with
          | Except.error e => some e
          | Except.ok _ => none)) := by
  induction results generalizing m errs with
  | nil => simp [drainGo]
  | cons r rest ih =>
    cases r with
    | ok commits => simp [drainGo, Except.toOption, ih]
    | error e => simp [drainGo, Except.toOption, ih]

/-- C3: a per-repository walk failure never becomes a run-level failure:
draining the per-repository results always completes, producing an
aggregation map that is exactly the fold over the successful walks (so a
failed walk contributes nothing, and every successful walk's identities
are present) and a log containing exactly the failed walks' errors. -/
theorem C3_failure_isolation
    (results : List (Except WalkError (List Commit))) :
    (drainResults results).1 =
      (results.filterMap Except.toOption).foldl
        (fun acc cs => aggregateCommits cs acc) [] ∧
    (drainResults results).2 =
      results.filterMap (fun r =>
        match r with
        | Except.error e => some e
        | Except.ok _ => none) := by
  unfold drainResults
  rw [drainGo_eq]
  exact ⟨rfl, by simp⟩

/-- C4: with the membership filter enabled, a success response classifies
the login as a member and it is retained in the output paired with its
profile URL from the aggregation map; an HTTP 404 classifies it as a
non-member and it is dropped; any other failure aborts the whole run with
an error. -/
theorem C4_membership_classification :
    (∀ user, is_org_user user MembershipResp.success =
      Except.ok (user, true)) ∧
    (∀ user, is_org_user user (MembershipResp.httpError (some 404)) =
      Except.ok (user, false)) ∧
    (∀ user st, st ≠ some 404 →
      is_org_user user (MembershipResp.httpError st) =
        Except.error "Network is not reachable") ∧
    (∀ m rest user out, filterOrgUsers m rest = Except.ok out →
      filterOrgUsers m (Except.ok (user, true) :: rest) =
        Except.ok ((user, mapIndex m user) :: out)) ∧
    (∀ m rest user, filterOrgUsers m (Except.ok (user, false) :: rest) =
      filterOrgUsers m rest) ∧
    (∀ m rest e, filterOrgUsers m (Except.error e :: rest) =
      Except.error e) := by
  refine ⟨fun user => rfl, fun user => rfl, ?_, ?_, fun m rest user => rfl,
    fun m rest e => rfl⟩
  · intro user st h
    simp only [is_org_user, if_neg h]
  · intro m rest user out h
    simp only [filterOrgUsers, if_pos trivial, h]
    rfl

/-- C4 witness: the classification and retention rules evaluated at
concrete inputs, discharging the hypotheses there. -/
theorem C4_membership_classification_witness :
    is_org_user "bob" (MembershipResp.httpError (some 500)) =
      Except.error "Network is not reachable" ∧
    filterOrgUsers [("alice", "url1")] [Except.ok ("alice", true)] =
      Except.ok [("alice", mapIndex [("alice", "url1")] "alice")] := by
  constructor
  · exact C4_membership_classification.2.2.1 "bob" (some 500) (by decide)
  · exact C4_membership_classification.2.2.2.1 [("alice", "url1")] []
      "alice" [] rfl

/-- Lookup after overwriting the value at an existing key. -/
theorem mapLookup_replace (k v : String) :
    ∀ m : List (String × String), m.any (fun p => p.1 = k) = true →
    mapLookup (m.map (fun p => if p.1 = k then (k, v) else p)) k = some v := by
  intro m
  induction m with
  | nil => intro h; simp at h
  | cons p rest ih =>
    intro h
    by_cases hp : p.1 = k
    · simp [mapLookup, List.find?, hp]
    · rw [List.any_cons, Bool.or_eq_true] at h
      have hrest : rest.any (fun p => p.1 = k) = true := by
        rcases h with h | h
        · exact absurd (of_decide_eq_true h) hp
        · exact h
      simpa [mapLookup, List.find?, hp] using ih hrest

/-- Lookup after appending a fresh key at the end of the map. -/
theorem mapLookup_append_fresh (k v : String) :
    ∀ m : List (String × String), m.any (fun p => p.1 = k) = false →
    mapLookup (m ++ [(k, v)]) k = some v := by
  intro m
  induction m with
  | nil => intro _; simp [mapLookup, List.find?]
  | cons p rest ih =>
    intro h
    rw [List.any_cons, Bool.or_eq_false_iff] at h
    have hp : ¬ p.1 = k := by simpa using h.1
    simpa [mapLookup, List.find?, hp] using ih h.2

theorem mapLookup_mapInsert (k v : String) :
    ∀ m : List (String × String), mapLookup (mapInsert m k v) k = some v := by
  intro m
  unfold mapInsert
  by_cases h : m.any (fun p => p.1 = k) = true
  · rw [if_pos h]
    exact mapLookup_replace k v m h
  · rw [if_neg h]
    exact mapLookup_append_fresh k v m (Bool.eq_false_iff.mpr h)

/-- The key list of `mapInsert`: unchanged when the key was present,
extended by the key otherwise. -/
theorem mapInsert_keys (m : List (String × String)) (k v : String) :
    (mapInsert m k v).map Prod.fst =
      if m.any (fun p => p.1 = k) then m.map Prod.fst
      else m.map Prod.fst ++ [k] := by
  unfold mapInsert
  by_cases h : m.any (fun p => p.1 = k) = true
  · rw [if_pos h, if_pos h, List.map_map]
    apply List.map_congr_left
    intro p _
    by_cases hp : p.1 = k <;> simp [hp]
  · rw [if_neg h, if_neg h]
    simp

/-- `mapInsert` preserves uniqueness of keys. -/
theorem mapInsert_nodupKeys (m : List (String × String)) (k v : String)
    (h : (m.map Prod.fst).Nodup) :
    ((mapInsert m k v).map Prod.fst).Nodup := by
  rw [mapInsert_keys]
  by_cases ha : m.any (fun p => p.1 = k) = true
  · rwa [if_pos ha]
  · rw [if_neg ha]
    rw [Bool.not_eq_true, List.any_eq_false] at ha
    refine List.Nodup.append h (List.nodup_singleton k) ?_
    intro x hx hk
    rcases List.mem_map.1 hx with ⟨p, hp, rfl⟩
    have hk2 : p.1 = k := List.mem_singleton.1 hk
    exact ha p hp (by simp [hk2])

/-- `insertIdentity` preserves uniqueness of keys. -/
theorem insertIdentity_nodupKeys (m : List (String × String))
    (a : Option Author) (h : (m.map Prod.fst).Nodup) :
    ((insertIdentity m a).map Prod.fst).Nodup := by
  cases a with
  | none => exact h
  | some a =>
    cases hu : a.html_url with
    | none => simpa [insertIdentity, hu] using h
    | some url =>
      cases hl : a.login with
      | none => simpa [insertIdentity, hu, hl] using h
      | some login =>
        simpa [insertIdentity, hu, hl] using mapInsert_nodupKeys m login url h

/-- `aggregateCommits` preserves uniqueness of keys. -/
theorem aggregateCommits_nodupKeys :
    ∀ (commits : List Commit) (m : List (String × String)),
    (m.map Prod.fst).Nodup →
    ((aggregateCommits commits m).map Prod.fst).Nodup := by
  intro commits
  induction commits with
  | nil => intro m h; exact h
  | cons c rest ih =>
    intro m h
    exact ih _ (insertIdentity_nodupKeys _ c.committer
      (insertIdentity_nodupKeys m c.author h))

/-- C6: the Identity Aggregator inserts `login -> profile_url` only when
an identity is present with both its login and profile URL present (an
absent identity or absent sub-field is skipped, never an error); duplicate
logins across any number of commits yield exactly one map entry (key
uniqueness is preserved), and on collision the last write wins. -/
theorem C6_identity_aggregation :
    (∀ m : List (String × String), insertIdentity m none = m) ∧
    (∀ (m : List (String × String)) (u : Option String),
      insertIdentity m (some ⟨none, u⟩) = m) ∧
    (∀ (m : List (String × String)) (l : Option String),
      insertIdentity m (some ⟨l, none⟩) = m) ∧
    (∀ (m : List (String × String)) (l u : String),
      insertIdentity m (some ⟨some l, some u⟩) = mapInsert m l u) ∧
    (∀ (m : List (String × String)) (k v : String),
      mapLookup (mapInsert m k v) k = some v) ∧
    (∀ (commits : List Commit) (m : List (String × String)),
      (m.map Prod.fst).Nodup →
      ((aggregateCommits commits m).map Prod.fst).Nodup) := by
  refine ⟨fun m => rfl, ?_, fun m l => rfl, fun m l u => rfl,
    fun m k v => mapLookup_mapInsert k v m, aggregateCommits_nodupKeys⟩
  intro m u
  cases u <;> rfl

/-- C6 witness: two commits from different repositories with the same
author identity contribute exactly one entry; the hypothesis (unique keys
in the empty starting map) is discharged concretely. -/
theorem C6_identity_aggregation_witness :
    ((([] : List (String × String)).map Prod.fst).Nodup) ∧
    ((aggregateCommits
        [{ commit := none,
           author := some { login := some "alice", html_url := some "u" },
           committer := none },
         { commit := none,
           author := some { login := some "alice", html_url := some "u" },
           committer := none }] []).map Prod.fst).Nodup := by
  refine ⟨List.nodup_nil, ?_⟩
  exact C6_identity_aggregation.2.2.2.2.2 _ [] List.nodup_nil

/-- Membership in a successful pre-filter result: a repository is
retained exactly when it was listed, its timestamp parses, and the parsed
timestamp is inside the window. -/
theorem filterRepos_mem (parse : String → Except String Int)
    (now dur : Int) :
    ∀ (repos fs : List Repo),
    filterRepos parse now dur repos = Except.ok fs →
    ∀ r : Repo, r ∈ fs ↔ (r ∈ repos ∧
      ∃ ts, parse r.pushed_at = Except.ok ts ∧ in_window now ts dur = true) := by
  intro repos
  induction repos with
  | nil =>
    intro fs h r
    simp only [filterRepos, Except.ok.injEq] at h
    subst h
    simp
  | cons a rest ih =>
    intro fs h r
    cases hp : parse a.pushed_at with
    | error e =>
      simp only [filterRepos, hp] at h
      exact Except.noConfusion h
    | ok ts =>
      cases hf : filterRepos parse now dur rest with
      | error e =>
        simp only [filterRepos, hp, hf] at h
        exact Except.noConfusion h
      | ok rest2 =>
        simp only [filterRepos, hp, hf] at h
        by_cases hw : in_window now ts dur = true
        · rw [if_pos hw, Except.ok.injEq] at h
          subst h
          constructor
          · intro hr
            rcases List.mem_cons.1 hr with rfl | hr
            · exact ⟨List.mem_cons_self _ _, ts, hp, hw⟩
            · rcases (ih rest2 hf r).1 hr with ⟨h1, h2⟩
              exact ⟨List.mem_cons_of_mem _ h1, h2⟩
          · intro ⟨h1, h2⟩
            rcases List.mem_cons.1 h1 with rfl | h1
            · exact List.mem_cons_self _ _
            · exact List.mem_cons_of_mem _ ((ih rest2 hf r).2 ⟨h1, h2⟩)
        · rw [if_neg hw, Except.ok.injEq] at h
          subst h
          rw [ih rest2 hf r]
          constructor
          · intro ⟨h1, h2⟩
            exact ⟨List.mem_cons_of_mem _ h1, h2⟩
          · intro ⟨h1, h2⟩
            rcases List.mem_cons.1 h1 with rfl | h1
            · rcases h2 with ⟨ts2, hts2, hw2⟩
              rw [hp, Except.ok.injEq] at hts2
              subst hts2
              exact absurd hw2 hw
            · exact ⟨h1, h2⟩

/-- A successful pre-filter implies every listed repository's timestamp
parsed successfully (a malformed timestamp always fails the run). -/
theorem filterRepos_ok_all_parse (parse : String → Except String Int)
    (now dur : Int) :
    ∀ (repos fs : List Repo),
    filterRepos parse now dur repos = Except.ok fs →
    ∀ r ∈ repos, (parse r.pushed_at).isOk = true := by
  intro repos
  induction repos with
  | nil => intro fs _ r hr; exact absurd hr (by simp)
  | cons a rest ih =>
    intro fs h r hr
    cases hp : parse a.pushed_at with
    | error e =>
      simp only [filterRepos, hp] at h
      exact Except.noConfusion h
    | ok ts =>
      cases hf : filterRepos parse now dur rest with
      | error e =>
        simp only [filterRepos, hp, hf] at h
        exact Except.noConfusion h
      | ok rest2 =>
        rcases List.mem_cons.1 hr with rfl | hr
        · rw [hp]; rfl
        · exact ih rest2 hf r hr

/-- C7: the window predicate is exactly `now - timestamp <= window
duration` (over UTC-normalized instants), and the repository pre-filter
retains a listed repository if and only if its parsed last-push timestamp
satisfies that predicate. -/
theorem C7_window_filter (parse : String → Except String Int)
    (now dur : Int) :
    (∀ ts : Int, in_window now ts dur = true ↔ now - ts ≤ dur) ∧
    (∀ repos fs, filterRepos parse now dur repos = Except.ok fs →
      ∀ r : Repo, r ∈ fs ↔ (r ∈ repos ∧
        ∃ ts, parse r.pushed_at = Except.ok ts ∧
          in_window now ts dur = true)) := by
  constructor
  · intro ts
    simp [in_window]
  · exact filterRepos_mem parse now dur

/-- C7 witness: with a 7-unit window at time 100, a repository pushed at
95 is retained and one pushed at 50 is not; the success hypothesis is
discharged concretely. -/
theorem C7_window_filter_witness :
    filterRepos
        (fun s => if s = "a" then (Except.ok 95 : Except String Int)
          else Except.ok 50) 100 7
        [Repo.mk "u1" "a", Repo.mk "u2" "b"] =
      Except.ok [Repo.mk "u1" "a"] ∧
    (Repo.mk "u2" "b" ∈ [Repo.mk "u1" "a"] ↔
      (Repo.mk "u2" "b" ∈ [Repo.mk "u1" "a", Repo.mk "u2" "b"] ∧
        ∃ ts : Int,
          (fun s => if s = "a" then (Except.ok 95 : Except String Int)
            else Except.ok 50) (Repo.mk "u2" "b").pushed_at =
              Except.ok ts ∧
          in_window 100 ts 7 = true)) := by
  constructor
  · rfl
  · exact (C7_window_filter
      (fun s => if s = "a" then (Except.ok 95 : Except String Int)
        else Except.ok 50) 100 7).2
      [Repo.mk "u1" "a", Repo.mk "u2" "b"] [Repo.mk "u1" "a"] rfl
      (Repo.mk "u2" "b")

/-- The accumulator carried by a `PageStep`. -/
def stepAcc : PageStep → List Commit
  | PageStep.next acc => acc
  | PageStep.stop acc => acc

/-- Page processing only ever appends commits that carry structured
metadata to the accumulator. -/
theorem processCommits_meta (parse : String → Except String Int)
    (now dur : Int) :
    ∀ (l acc : List Commit) (step : PageStep),
    processCommits parse now dur acc l = Except.ok step →
    (∀ c ∈ acc, hasMeta c = true) →
    ∀ c ∈ stepAcc step, hasMeta c = true := by
  intro l
  induction l with
  | nil =>
    intro acc step h hacc
    simp only [processCommits, Except.ok.injEq] at h
    subst h
    exact hacc
  | cons i rest ih =>
    intro acc step h hacc
    cases hi : i.commit with
    | none =>
      simp only [processCommits, hi] at h
      exact ih acc step h hacc
    | some m =>
      cases hcd : parse m.committer.date with
      | error e =>
        simp only [processCommits, hi, hcd] at h
        exact Except.noConfusion h
      | ok cdt =>
        cases had : parse m.author.date with
        | error e =>
          simp only [processCommits, hi, hcd, had] at h
          exact Except.noConfusion h
        | ok adt =>
          simp only [processCommits, hi, hcd, had] at h
          by_cases hw : now - cdt > dur ∧ now - adt > dur
          · rw [if_pos hw, Except.ok.injEq] at h
            subst h
            exact hacc
          · rw [if_neg hw] at h
            refine ih (acc ++ [i]) step h ?_
            intro c hc
            rcases List.mem_append.1 hc with hc | hc
            · exact hacc c hc
            · rcases List.mem_singleton.1 hc with rfl
              simp [hasMeta, hi]

/-- A successful walk only returns commits that carry structured
metadata. -/
theorem goPages_meta (parse : String → Except String Int) (now dur : Int) :
    ∀ (pages : List FetchResult) (acc res : List Commit),
    goPages parse now dur pages acc = Except.ok res →
    (∀ c ∈ acc, hasMeta c = true) →
    ∀ c ∈ res, hasMeta c = true := by
  intro pages
  induction pages with
  | nil =>
    intro acc res h hacc
    simp only [goPages, Except.ok.injEq] at h
    subst h
    exact hacc
  | cons fr rest ih =>
    intro acc res h hacc
    cases fr with
    | httpError st =>
      simp only [goPages] at h
      by_cases h9 : st = some 409
      · rw [if_pos h9] at h
        exact Except.noConfusion h
      · rw [if_neg h9] at h
        exact Except.noConfusion h
    | success json =>
      simp only [goPages] at h
      by_cases he : json.isEmpty
      · rw [if_pos he, Except.ok.injEq] at h
        subst h
        exact hacc
      · rw [if_neg he] at h
        cases hp : processCommits parse now dur acc json with
        | error e =>
          rw [hp] at h
          exact Except.noConfusion h
        | ok step =>
          rw [hp] at h
          cases step with
          | stop acc2 =>
            simp only [Except.ok.injEq] at h
            subst h
            exact processCommits_meta parse now dur json acc
              (PageStep.stop acc2) hp hacc
          | next acc2 =>
            exact ih acc2 res h
              (processCommits_meta parse now dur json acc
                (PageStep.next acc2) hp hacc)

/-- C10: a commit whose structured commit metadata is absent is skipped
outright: processing it neither parses nor window-tests anything and
leaves the accumulator unchanged (so it can never fire early termination),
and a successful walk never returns such a commit (so its identities,
even if fully present, never reach aggregation). -/
theorem C10_missing_metadata_skipped (parse : String → Except String Int)
    (now dur : Int) :
    (∀ (c : Commit) (rest acc : List Commit), c.commit = none →
      processCommits parse now dur acc (c :: rest) =
        processCommits parse now dur acc rest) ∧
    (∀ (pages : List FetchResult) (res : List Commit),
      get_commits_info_by_url parse now dur pages = Except.ok res →
      ∀ c ∈ res, c.commit.isSome = true) := by
  constructor
  · intro c rest acc hc
    simp only [processCommits, hc]
  · intro pages res h c hc
    exact goPages_meta parse now dur pages [] res h (by simp) c hc

/-- C10 witness: a metadata-less commit with a fully present author
identity is dropped by processing and never appears in a successful
walk's result; hypotheses discharged at concrete inputs. -/
theorem C10_missing_metadata_skipped_witness :
    processCommits (fun _ => Except.ok 0) 100 7 []
        [{ commit := none,
           author := some { login := some "alice", html_url := some "u" },
           committer := none }] =
      processCommits (fun _ => Except.ok 0) 100 7 [] [] ∧
    (∀ c ∈ ([] : List Commit), c.commit.isSome = true) := by
  constructor
  · exact (C10_missing_metadata_skipped (fun _ => Except.ok 0) 100 7).1
      { commit := none,
        author := some { login := some "alice", html_url := some "u" },
        committer := none } [] [] rfl
  · exact (C10_missing_metadata_skipped (fun _ => Except.ok 0) 100 7).2
      [FetchResult.success
        [{ commit := none,
           author := some { login := some "alice", html_url := some "u" },
           committer := none }]] [] rfl

/-- Both dates of a commit's structured metadata (when present) parse
successfully. -/
def parsesOk (parse : String → Except String Int) (c : Commit) : Bool :=
  match c.commit with
  | none => true
  | some m => (parse m.committer.date).isOk && (parse m.author.date).isOk

/-- The commits a walk retains out of a commit sequence: those up to (and
excluding) the first commit whose two timestamps are both outside the
window, restricted to commits carrying structured metadata. -/
def keepCommits (parse : String → Except String Int) (now dur : Int)
    (l : List Commit) : List Commit :=
  (l.takeWhile (fun c => !bothOutside parse now dur c)).filter hasMeta

/-- `takeWhile` over an append when the whole first part satisfies the
predicate. -/
theorem takeWhile_append_all {α : Type} (p : α → Bool) :
    ∀ l1 l2 : List α, (∀ a ∈ l1, p a = true) →
    (l1 ++ l2).takeWhile p = l1 ++ l2.takeWhile p := by
  intro l1
  induction l1 with
  | nil => intro l2 _; simp
  | cons a rest ih =>
    intro l2 h
    have ha : p a = true := h a (List.mem_cons_self _ _)
    simp only [List.cons_append, List.takeWhile_cons, ha, if_true]
    rw [ih l2 (fun b hb => h b (List.mem_cons_of_mem _ hb))]

/-- `takeWhile` over an append when the first part contains a failing
element. -/
theorem takeWhile_append_halts {α : Type} (p : α → Bool) :
    ∀ l1 l2 : List α, l1.any (fun a => !p a) = true →
    (l1 ++ l2).takeWhile p = l1.takeWhile p := by
  intro l1
  induction l1 with
  | nil => intro l2 h; simp at h
  | cons a rest ih =>
    intro l2 h
    by_cases ha : p a = true
    · simp only [List.cons_append, List.takeWhile_cons, ha, if_true]
      rw [List.any_cons, ha] at h
      simp only [Bool.not_true, Bool.false_or] at h
      rw [ih l2 h]
    · have ha2 : p a = false := Bool.eq_false_iff.mpr ha
      simp [List.takeWhile_cons, ha2]

/-- `takeWhile` is the identity on a list all of whose elements satisfy
the predicate. -/
theorem takeWhile_all {α : Type} (p : α → Bool) (l : List α)
    (h : ∀ a ∈ l, p a = true) : l.takeWhile p = l := by
  have := takeWhile_append_all p l [] h
  simpa using this

/-- Characterization of one page's processing when every commit's dates
parse: the retained commits are appended to the accumulator, and the step
is `stop` exactly when the page contains a commit with both timestamps
outside the window. -/
theorem processCommits_eq (parse : String → Except String Int)
    (now dur : Int) :
    ∀ (l acc : List Commit), (∀ c ∈ l, parsesOk parse c = true) →
    processCommits parse now dur acc l =
      Except.ok (if l.any (bothOutside parse now dur)
        then PageStep.stop (acc ++ keepCommits parse now dur l)
        else PageStep.next (acc ++ keepCommits parse now dur l)) := by
  intro l
  induction l with
  | nil =>
    intro acc _
    simp [processCommits, keepCommits]
  | cons i rest ih =>
    intro acc h
    have hrest : ∀ c ∈ rest, parsesOk parse c = true :=
      fun c hc => h c (List.mem_cons_of_mem _ hc)
    cases hi : i.commit with
    | none =>
      have hb : bothOutside parse now dur i = false := by
        simp [bothOutside, hi]
      have hm : hasMeta i = false := by simp [hasMeta, hi]
      rw [processCommits, hi]
      rw [ih acc hrest]
      simp [keepCommits, List.any_cons, hb, List.takeWhile_cons,
        List.filter_cons, hm]
    | some m =>
      have hpo := h i (List.mem_cons_self _ _)
      rw [parsesOk, hi] at hpo
      rw [Bool.and_eq_true] at hpo
      cases hcd : parse m.committer.date with
      | error e =>
        rw [hcd] at hpo
        exact Bool.noConfusion hpo.1
      | ok cdt =>
        cases had : parse m.author.date with
        | error e =>
          rw [had] at hpo
          exact Bool.noConfusion hpo.2
        | ok adt =>
          simp only [processCommits, hi, hcd, had]
          by_cases hw : now - cdt > dur ∧ now - adt > dur
          · rw [if_pos hw]
            have hb : bothOutside parse now dur i = true := by
              simp [bothOutside, hi, hcd, had, hw.1, hw.2]
            have hbn : (!bothOutside parse now dur i) = false := by
              simp [hb]
            simp [keepCommits, List.any_cons, hb, List.takeWhile_cons, hbn]
          · rw [if_neg hw]
            have hb : bothOutside parse now dur i = false := by
              simp only [bothOutside, hi, hcd, had]
              rw [Bool.and_eq_false_iff]
              rcases Decidable.not_and_iff_or_not.1 hw with hw1 | hw1
              · exact Or.inl (by simpa using hw1)
              · exact Or.inr (by simpa using hw1)
            have hm : hasMeta i = true := by simp [hasMeta, hi]
            rw [ih (acc ++ [i]) hrest]
            simp [keepCommits, List.any_cons, hb, List.takeWhile_cons,
              List.filter_cons, hm]

/-- Characterization of a walk over non-empty, parse-clean pages: the
result is the window-retained, metadata-filtered prefix of the
concatenated pages, appended to the accumulator. -/
theorem goPages_success_eq (parse : String → Except String Int)
    (now dur : Int) :
    ∀ (pages : List (List Commit)) (acc : List Commit),
    (∀ pg ∈ pages, pg ≠ []) →
    (∀ c ∈ pages.flatten, parsesOk parse c = true) →
    goPages parse now dur (pages.map FetchResult.success) acc =
      Except.ok (acc ++ keepCommits parse now dur pages.flatten) := by
  intro pages
  induction pages with
  | nil =>
    intro acc _ _
    simp [goPages, keepCommits]
  | cons l rest ih =>
    intro acc hne hpo
    have hl : l ≠ [] := hne l (List.mem_cons_self _ _)
    have hle : l.isEmpty = false := by
      cases l with
      | nil => exact absurd rfl hl
      | cons a t => rfl
    have hpol : ∀ c ∈ l, parsesOk parse c = true := by
      intro c hc
      refine hpo c ?_
      rw [List.flatten_cons]
      exact List.mem_append.2 (Or.inl hc)
    have hporest : ∀ c ∈ List.flatten rest, parsesOk parse c = true := by
      intro c hc
      refine hpo c ?_
      rw [List.flatten_cons]
      exact List.mem_append.2 (Or.inr hc)
    have hpc := processCommits_eq parse now dur l acc hpol
    by_cases hb : l.any (bothOutside parse now dur) = true
    · rw [if_pos hb] at hpc
      simp only [List.map_cons, goPages, hle, Bool.false_eq_true, if_false,
        hpc]
      have hta : (l ++ List.flatten rest).takeWhile
          (fun c => !bothOutside parse now dur c) =
          l.takeWhile (fun c => !bothOutside parse now dur c) := by
        refine takeWhile_append_halts _ l (List.flatten rest) ?_
        rcases List.any_eq_true.1 hb with ⟨c, hc, hcb⟩
        exact List.any_eq_true.2 ⟨c, hc, by simp [hcb]⟩
      simp [keepCommits, List.flatten_cons, hta]
    · rw [if_neg hb] at hpc
      simp only [List.map_cons, goPages, hle, Bool.false_eq_true, if_false,
        hpc]
      rw [ih (acc ++ keepCommits parse now dur l) (fun pg hpg =>
        hne pg (List.mem_cons_of_mem _ hpg)) hporest]
      have hall : ∀ c ∈ l, (fun c => !bothOutside parse now dur c) c = true := by
        intro c hc
        have := (List.any_eq_false.1 (Bool.eq_false_iff.mpr hb)) c hc
        simp only [Bool.not_eq_true']
        exact Bool.eq_false_iff.mpr this
      have ht : (l ++ List.flatten rest).takeWhile
          (fun c => !bothOutside parse now dur c) =
          l ++ (List.flatten rest).takeWhile
            (fun c => !bothOutside parse now dur c) :=
        takeWhile_append_all _ l (List.flatten rest) hall
      have htl : l.takeWhile (fun c => !bothOutside parse now dur c) = l :=
        takeWhile_all _ l hall
      simp [keepCommits, List.flatten_cons, ht, htl, List.filter_append]

/-- Once a page containing a both-outside commit has been processed, the
walk result does not depend on any later page: no further page is
fetched. -/
theorem goPages_indep (parse : String → Except String Int) (now dur : Int) :
    ∀ (pages : List (List Commit)) (acc : List Commit)
      (post : List FetchResult),
    (∀ pg ∈ pages, pg ≠ []) →
    (∀ c ∈ pages.flatten, parsesOk parse c = true) →
    pages.flatten.any (bothOutside parse now dur) = true →
    goPages parse now dur (pages.map FetchResult.success ++ post) acc =
      goPages parse now dur (pages.map FetchResult.success) acc := by
  intro pages
  induction pages with
  | nil =>
    intro acc post _ _ hb
    simp at hb
  | cons l rest ih =>
    intro acc post hne hpo hb
    have hl : l ≠ [] := hne l (List.mem_cons_self _ _)
    have hle : l.isEmpty = false := by
      cases l with
      | nil => exact absurd rfl hl
      | cons a t => rfl
    have hpol : ∀ c ∈ l, parsesOk parse c = true := by
      intro c hc
      refine hpo c ?_
      rw [List.flatten_cons]
      exact List.mem_append.2 (Or.inl hc)
    have hporest : ∀ c ∈ List.flatten rest, parsesOk parse c = true := by
      intro c hc
      refine hpo c ?_
      rw [List.flatten_cons]
      exact List.mem_append.2 (Or.inr hc)
    have hpc := processCommits_eq parse now dur l acc hpol
    by_cases hbl : l.any (bothOutside parse now dur) = true
    · rw [if_pos hbl] at hpc
      simp only [List.map_cons, List.cons_append, goPages, hle,
        Bool.false_eq_true, if_false, hpc]
    · rw [if_neg hbl] at hpc
      have hbrest : (List.flatten rest).any (bothOutside parse now dur) = true := by
        rw [List.flatten_cons, List.any_append, Bool.or_eq_true] at hb
        rcases hb with hb | hb
        · exact absurd hb hbl
        · exact hb
      simp only [List.map_cons, List.cons_append, goPages, hle,
        Bool.false_eq_true, if_false, hpc]
      exact ih (acc ++ keepCommits parse now dur l) post (fun pg hpg =>
        hne pg (List.mem_cons_of_mem _ hpg)) hporest hbrest

/-- C2: over non-empty pages whose commits' timestamps all parse, the
walk returns exactly the metadata-carrying commits preceding the first
commit whose author and committer timestamps are both outside the window
(so that commit and everything after it on its page is dropped); once
such a commit exists, later pages are never fetched (the result is
independent of them); and the result is a prefix of the metadata-carrying
commit history, never a gapped subset. -/
theorem C2_early_termination (parse : String → Except String Int)
    (now dur : Int) (pages : List (List Commit)) (post : List FetchResult)
    (hne : ∀ pg ∈ pages, pg ≠ [])
    (hpo : ∀ c ∈ pages.flatten, parsesOk parse c = true) :
    get_commits_info_by_url parse now dur
        (pages.map FetchResult.success) =
      Except.ok ((pages.flatten.takeWhile
        (fun c => !bothOutside parse now dur c)).filter hasMeta) ∧
    (pages.flatten.any (bothOutside parse now dur) = true →
      get_commits_info_by_url parse now dur
          (pages.map FetchResult.success ++ post) =
        get_commits_info_by_url parse now dur
          (pages.map FetchResult.success)) ∧
    (∃ t, pages.flatten.filter hasMeta =
      ((pages.flatten.takeWhile
        (fun c => !bothOutside parse now dur c)).filter hasMeta) ++ t) := by
  refine ⟨?_, ?_, ?_⟩
  · have := goPages_success_eq parse now dur pages [] hne hpo
    simpa [get_commits_info_by_url, keepCommits] using this
  · intro hb
    exact goPages_indep parse now dur pages [] post hne hpo hb
  · refine ⟨((pages.flatten.dropWhile
      (fun c => !bothOutside parse now dur c)).filter hasMeta), ?_⟩
    conv_lhs => rw [← List.takeWhile_append_dropWhile
      (p := fun c => !bothOutside parse now dur c) (l := pages.flatten)]
    rw [List.filter_append]

/-- C2 witness: two pages, the second of which starts with a both-outside
commit; the retained result is exactly the first page metadata-carrying
commit, a third page is never fetched, and the hypotheses are discharged
concretely. -/
theorem C2_early_termination_witness :
    (∀ pg ∈ [[Commit.mk
        (some (RepoCommit.mk (RepoAuthor.mk "in") (RepoAuthor.mk "in")))
        none none,
      Commit.mk none
        (some (Author.mk (some "alice") (some "u"))) none],
      [Commit.mk
        (some (RepoCommit.mk (RepoAuthor.mk "old") (RepoAuthor.mk "old")))
        none none]], pg ≠ []) ∧
    get_commits_info_by_url
        (fun s => if s = "in" then (Except.ok 95 : Except String Int)
          else Except.ok 0) 100 7
        ([[Commit.mk
            (some (RepoCommit.mk (RepoAuthor.mk "in") (RepoAuthor.mk "in")))
            none none,
          Commit.mk none
            (some (Author.mk (some "alice") (some "u"))) none],
          [Commit.mk
            (some (RepoCommit.mk (RepoAuthor.mk "old") (RepoAuthor.mk "old")))
            none none]].map FetchResult.success ++
          [FetchResult.httpError none]) =
      Except.ok [Commit.mk
        (some (RepoCommit.mk (RepoAuthor.mk "in") (RepoAuthor.mk "in")))
        none none] := by
  constructor
  · decide
  · have h := C2_early_termination
      (fun s => if s = "in" then (Except.ok 95 : Except String Int)
        else Except.ok 0) 100 7
      [[Commit.mk
          (some (RepoCommit.mk (RepoAuthor.mk "in") (RepoAuthor.mk "in")))
          none none,
        Commit.mk none
          (some (Author.mk (some "alice") (some "u"))) none],
        [Commit.mk
          (some (RepoCommit.mk (RepoAuthor.mk "old") (RepoAuthor.mk "old")))
          none none]]
      [FetchResult.httpError none] (by decide) (by decide)
    rw [h.2.1 (by decide), h.1]
    rfl

/-- Processing with the malformed commit at an arbitrary position: if
every commit before it on the page parses and none of them has both
timestamps outside the window (so processing reaches the malformed one),
then a committer-date parse failure, or a committer-date success followed
by an author-date parse failure, makes the page processing fail with that
parse error, whatever the accumulator. -/
theorem processCommits_error_at (parse : String → Except String Int)
    (now dur : Int) :
    ∀ (curr : List Commit) (acc cs : List Commit) (c : Commit)
      (m : RepoCommit) (e : String),
    (∀ x ∈ curr, parsesOk parse x = true) →
    curr.any (bothOutside parse now dur) = false →
    c.commit = some m →
    (parse m.committer.date = Except.error e ∨
      ((parse m.committer.date).isOk = true ∧
        parse m.author.date = Except.error e)) →
    processCommits parse now dur acc (curr ++ c :: cs) =
      Except.error (WalkError.parseError e) := by
  intro curr
  induction curr with
  | nil =>
    intro acc cs c m e _ _ hc hbad
    rcases hbad with hbad | ⟨hok, hbad⟩
    · simp [processCommits, hc, hbad]
    · cases hcd : parse m.committer.date with
      | error e2 =>
        rw [hcd] at hok
        exact Bool.noConfusion hok
      | ok cdt => simp [processCommits, hc, hcd, hbad]
  | cons x rest ih =>
    intro acc cs c m e hpo hb hc hbad
    have hporest : ∀ y ∈ rest, parsesOk parse y = true :=
      fun y hy => hpo y (List.mem_cons_of_mem _ hy)
    rw [List.any_cons, Bool.or_eq_false_iff] at hb
    cases hx : x.commit with
    | none =>
      simp only [List.cons_append, processCommits, hx]
      exact ih acc cs c m e hporest hb.2 hc hbad
    | some mx =>
      have hpx := hpo x (List.mem_cons_self _ _)
      rw [parsesOk, hx, Bool.and_eq_true] at hpx
      cases hcd : parse mx.committer.date with
      | error e2 =>
        rw [hcd] at hpx
        exact Bool.noConfusion hpx.1
      | ok cdt =>
        cases had : parse mx.author.date with
        | error e2 =>
          rw [had] at hpx
          exact Bool.noConfusion hpx.2
        | ok adt =>
          have hbx := hb.1
          have hw : ¬ (now - cdt > dur ∧ now - adt > dur) := by
            simp only [bothOutside, hx, hcd, had] at hbx
            intro hcontra
            rw [decide_eq_true hcontra.1, decide_eq_true hcontra.2] at hbx
            exact Bool.noConfusion hbx
          simp only [List.cons_append, processCommits, hx, hcd, had]
          rw [if_neg hw]
          exact ih (acc ++ [x]) cs c m e hporest hb.2 hc hbad

/-- A walk consumes any run of non-empty, parse-clean pages containing no
both-outside commit, retaining their metadata-carrying commits, and then
continues with the remaining fetch outcomes. -/
theorem goPages_skip_clean (parse : String → Except String Int)
    (now dur : Int) :
    ∀ (pre : List (List Commit)) (acc : List Commit)
      (rest2 : List FetchResult),
    (∀ pg ∈ pre, pg ≠ []) →
    (∀ x ∈ pre.flatten, parsesOk parse x = true) →
    pre.flatten.any (bothOutside parse now dur) = false →
    goPages parse now dur (pre.map FetchResult.success ++ rest2) acc =
      goPages parse now dur rest2
        (acc ++ keepCommits parse now dur pre.flatten) := by
  intro pre
  induction pre with
  | nil =>
    intro acc rest2 _ _ _
    simp [keepCommits]
  | cons l rest ih =>
    intro acc rest2 hne hpo hb
    have hl : l ≠ [] := hne l (List.mem_cons_self _ _)
    have hle : l.isEmpty = false := by
      cases l with
      | nil => exact absurd rfl hl
      | cons a t => rfl
    have hpol : ∀ c ∈ l, parsesOk parse c = true := by
      intro c hc
      refine hpo c ?_
      rw [List.flatten_cons]
      exact List.mem_append.2 (Or.inl hc)
    have hporest : ∀ c ∈ List.flatten rest, parsesOk parse c = true := by
      intro c hc
      refine hpo c ?_
      rw [List.flatten_cons]
      exact List.mem_append.2 (Or.inr hc)
    rw [List.flatten_cons, List.any_append, Bool.or_eq_false_iff] at hb
    have hpc := processCommits_eq parse now dur l acc hpol
    rw [if_neg (by simp [hb.1])] at hpc
    simp only [List.map_cons, List.cons_append, goPages, hle,
      Bool.false_eq_true, if_false, hpc]
    rw [show (List.map FetchResult.success rest).append rest2 =
      List.map FetchResult.success rest ++ rest2 from rfl]
    rw [ih (acc ++ keepCommits parse now dur l) rest2 (fun pg hpg =>
      hne pg (List.mem_cons_of_mem _ hpg)) hporest hb.2]
    have hall : ∀ c ∈ l, (fun c => !bothOutside parse now dur c) c = true := by
      intro c hc
      have := (List.any_eq_false.1 hb.1) c hc
      simp only [Bool.not_eq_true']
      exact Bool.eq_false_iff.mpr this
    have ht : (l ++ List.flatten rest).takeWhile
        (fun c => !bothOutside parse now dur c) =
        l ++ (List.flatten rest).takeWhile
          (fun c => !bothOutside parse now dur c) :=
      takeWhile_append_all _ l (List.flatten rest) hall
    have htl : l.takeWhile (fun c => !bothOutside parse now dur c) = l :=
      takeWhile_all _ l hall
    have hsplit : keepCommits parse now dur ((l :: rest).flatten) =
        keepCommits parse now dur l ++
          keepCommits parse now dur (List.flatten rest) := by
      simp [keepCommits, List.flatten_cons, ht, htl, List.filter_append]
    rw [hsplit, ← List.append_assoc]

/-- C8: a malformed timestamp propagates rather than being skipped: if
any listed repository's timestamp fails to parse, the pre-filter (and so
the run) fails; and whenever the commit traversal of a walk reaches a
commit with a malformed committer or author date — at any position on any
page, after any number of clean pages and retained commits — the walk
fails with that parse error. -/
theorem C8_parse_error_propagation (parse : String → Except String Int)
    (now dur : Int) :
    (∀ repos : List Repo,
      (∃ r ∈ repos, (parse r.pushed_at).isOk = false) →
      ∀ fs, filterRepos parse now dur repos ≠ Except.ok fs) ∧
    (∀ (pre : List (List Commit)) (curr cs : List Commit)
        (post : List FetchResult) (c : Commit) (m : RepoCommit)
        (e : String),
      (∀ pg ∈ pre, pg ≠ []) →
      (∀ x ∈ pre.flatten, parsesOk parse x = true) →
      pre.flatten.any (bothOutside parse now dur) = false →
      (∀ x ∈ curr, parsesOk parse x = true) →
      curr.any (bothOutside parse now dur) = false →
      c.commit = some m →
      (parse m.committer.date = Except.error e ∨
        ((parse m.committer.date).isOk = true ∧
          parse m.author.date = Except.error e)) →
      get_commits_info_by_url parse now dur
          (pre.map FetchResult.success ++
            FetchResult.success (curr ++ c :: cs) :: post) =
        Except.error (WalkError.parseError e)) := by
  constructor
  · intro repos ⟨r, hr, hbad⟩ fs h
    have := filterRepos_ok_all_parse parse now dur repos fs h r hr
    rw [this] at hbad
    exact absurd hbad (by simp)
  · intro pre curr cs post c m e hne hpo hb hpoc hbc hc hbad
    unfold get_commits_info_by_url
    rw [goPages_skip_clean parse now dur pre []
      (FetchResult.success (curr ++ c :: cs) :: post) hne hpo hb]
    have hne2 : (curr ++ c :: cs).isEmpty = false := by
      cases curr <;> rfl
    have herr := processCommits_error_at parse now dur curr
      (([] : List Commit) ++ keepCommits parse now dur pre.flatten)
      cs c m e hpoc hbc hc hbad
    simp only [goPages, hne2, Bool.false_eq_true, if_false, herr]

/-- C8 witness: a repository list with one malformed timestamp fails the
pre-filter; a commit with a malformed author date placed on the second
page, after a retained commit on each of the first and second pages,
fails the walk; so does a first-page head commit with a malformed
committer date; every hypothesis is discharged at these concrete
inputs. -/
theorem C8_parse_error_propagation_witness :
    (∀ fs, filterRepos
        (fun s => if s = "in" then (Except.ok 95 : Except String Int)
          else Except.error "bad")
        100 7 [Repo.mk "u1" "in", Repo.mk "u2" "oops"] ≠ Except.ok fs) ∧
    get_commits_info_by_url
        (fun s => if s = "in" then (Except.ok 95 : Except String Int)
          else Except.error "bad")
        100 7
        [FetchResult.success
          [Commit.mk
            (some (RepoCommit.mk (RepoAuthor.mk "in") (RepoAuthor.mk "in")))
            none none],
         FetchResult.success
          [Commit.mk
            (some (RepoCommit.mk (RepoAuthor.mk "in") (RepoAuthor.mk "in")))
            none none,
           Commit.mk
            (some (RepoCommit.mk (RepoAuthor.mk "oops") (RepoAuthor.mk "in")))
            none none],
         FetchResult.httpError none] =
      Except.error (WalkError.parseError "bad") ∧
    get_commits_info_by_url
        (fun s => if s = "in" then (Except.ok 95 : Except String Int)
          else Except.error "bad")
        100 7
        [FetchResult.success
          [Commit.mk
            (some (RepoCommit.mk (RepoAuthor.mk "in") (RepoAuthor.mk "oops")))
            none none]] =
      Except.error (WalkError.parseError "bad") := by
    refine ⟨?_, ?_, ?_⟩
    · exact (C8_parse_error_propagation
        (fun s => if s = "in" then (Except.ok 95 : Except String Int)
          else Except.error "bad")
        100 7).1 [Repo.mk "u1" "in", Repo.mk "u2" "oops"]
        ⟨Repo.mk "u2" "oops", by simp, by decide⟩
    · exact (C8_parse_error_propagation
        (fun s => if s = "in" then (Except.ok 95 : Except String Int)
          else Except.error "bad")
        100 7).2
        [[Commit.mk
          (some (RepoCommit.mk (RepoAuthor.mk "in") (RepoAuthor.mk "in")))
          none none]]
        [Commit.mk
          (some (RepoCommit.mk (RepoAuthor.mk "in") (RepoAuthor.mk "in")))
          none none]
        [] [FetchResult.httpError none]
        (Commit.mk
          (some (RepoCommit.mk (RepoAuthor.mk "oops") (RepoAuthor.mk "in")))
          none none)
        (RepoCommit.mk (RepoAuthor.mk "oops") (RepoAuthor.mk "in")) "bad"
        (by decide) (by decide) (by decide) (by decide) (by decide) rfl
        (Or.inr ⟨by decide, rfl⟩)
    · exact (C8_parse_error_propagation
        (fun s => if s = "in" then (Except.ok 95 : Except String Int)
          else Except.error "bad")
        100 7).2 [] [] []
        [] (Commit.mk
          (some (RepoCommit.mk (RepoAuthor.mk "in") (RepoAuthor.mk "oops")))
          none none)
        (RepoCommit.mk (RepoAuthor.mk "in") (RepoAuthor.mk "oops")) "bad"
        (by decide) (by decide) (by decide) (by decide) (by decide) rfl
        (Or.inl rfl)

/-- C5: the code is a slip against the spec's intent: the repository-crawl
URL interpolates the configured organization, but the membership-check URL
is hard-coded to the fixed organization "aosc-dev" — for the configured
organization "rust-lang", the membership check does not query "rust-lang"
(it coincides with the spec-modelled URL only when the configuration
happens to be "aosc-dev"). -/
theorem C5_membership_org_hardcoded :
    get_repos_url "rust-lang" =
      "https://api.github.com/orgs/rust-lang/repos?per_page=100&sort=pushed" ∧
    is_org_user_url "alice" =
      membership_url_spec "aosc-dev" "alice" ∧
    is_org_user_url "alice" ≠ membership_url_spec "rust-lang" "alice" := by
  refine ⟨rfl, rfl, ?_⟩
  decide

end Kpi
